import Mathlib

/-!
Verification development for the editor quick-open picker
(src/vs/workbench/browser/parts/editor/editorPicker.ts).

The picker engine filters a list of open-editor entries by a fuzzy score,
sorts survivors by owning group (creation order) and then by descending
score, and annotates group boundaries.  The fuzzy scorer itself
(prepareQuery, scoreItem, compareItemsByScore from
vs/base/parts/quickopen/common/quickOpenScorer) is an external collaborator
of this file; it is modelled from the specification as a deterministic
score function together with a memoization cache keyed by
(label, description, query).
-/

namespace EditorPicker

/-- An open editor (external EditorInput): identity plus the two text
fields the scorer and the picker read (getName, getDescription). -/
structure EditorInput where
  id : Nat
  name : String
  description : String
deriving DecidableEq, Repr

/-- An editor group (external INextEditorGroup): identity, display label,
its editors in sequential order, its editors in most-recently-active
order, and the currently active editor.  The mruEditors field models
getEditors(EditorsOrder.MOST_RECENTLY_ACTIVE); the spec describes it as
the group's editors in most-recently-active order, the active editor
first. -/
structure INextEditorGroup where
  id : Nat
  label : String
  editors : List EditorInput
  mruEditors : List EditorInput
  activeEditor : Option EditorInput
deriving DecidableEq, Repr

/-- Number of editors in a group (INextEditorGroup.count). -/
def INextEditorGroup.count (g : INextEditorGroup) : Nat :=
  g.editors.length

/-- The group service (external INextEditorGroupsService), holding the
groups in creation-time order; getGroups(GroupsOrder.CREATION_TIME)
returns exactly this list. -/
structure INextEditorGroupsService where
  groupsByCreation : List INextEditorGroup
deriving DecidableEq, Repr

/-- getGroups(GroupsOrder.CREATION_TIME). -/
def INextEditorGroupsService.getGroups (svc : INextEditorGroupsService) :
    List INextEditorGroup :=
  svc.groupsByCreation

/-- INextEditorGroupsService.count: the number of groups. -/
def INextEditorGroupsService.count (svc : INextEditorGroupsService) : Nat :=
  svc.groupsByCreation.length

/-- Modelled from the spec: the result of scoring one item against one
query (IItemScore from quickOpenScorer, not under src/): a numeric score
where 0 means no match, plus highlight ranges for label and
description. -/
structure ItemScore where
  score : Nat
  labelMatch : List (Nat × Nat)
  descriptionMatch : List (Nat × Nat)
deriving DecidableEq, Repr

/-- Modelled from the spec: the external fuzzy scorer is a deterministic
function of the item's label, its description and the normalized query
text. -/
abbrev Scorer := String → String → String → ItemScore

/-- Cache key: (label, description, query value); quickOpenScorer hashes
exactly these three strings for its cache lookup. -/
abbrev CacheKey := String × String × String

/-- Modelled from the spec: the ScorerCache, a memoization map from
(entry identity, query string) to a previously computed score. -/
abbrev ScorerCache := List (CacheKey × ItemScore)

/-- Lookup in the score cache. -/
def cacheLookup (key : CacheKey) : ScorerCache → Option ItemScore
  | [] => none
  | (k, v) :: rest => if k = key then some v else cacheLookup key rest

/-- Whitespace test used by query normalization (space, tab, newline,
carriage return). -/
def isWS (c : Char) : Bool :=
  c == ' ' || c == '\t' || c == '\n' || c == '\r'

/-- Modelled from the spec: trimming of the raw search text (leading and
trailing whitespace removed); structurally recursive so that it
evaluates. -/
def trimString (s : String) : String :=
  String.mk (((s.data.dropWhile isWS).reverse.dropWhile isWS).reverse)

/-- Modelled from the spec: prepareQuery (quickOpenScorer, not under
src/) normalizes the raw search text; the spec says the query is trimmed
and an empty or whitespace-only query means match everything. -/
structure PreparedQuery where
  original : String
  value : String
deriving DecidableEq, Repr

/-- Modelled from the spec: query normalization (trimming). -/
def prepareQuery (searchValue : String) : PreparedQuery :=
  { original := searchValue, value := trimString searchValue }

/-- One row of the picker (EditorPickerEntry): the wrapped editor, its
owning group, and the per-query presentation annotations set by the
engine. -/
structure EditorPickerEntry where
  editor : EditorInput
  group : INextEditorGroup
  labelHighlights : List (Nat × Nat) := []
  descriptionHighlights : List (Nat × Nat) := []
  groupLabel : Option String := none
  showBorder : Bool := false
deriving DecidableEq, Repr

/-- EditorPickerEntry.getLabel: the editor's name. -/
def EditorPickerEntry.getLabel (e : EditorPickerEntry) : String :=
  e.editor.name

/-- EditorPickerEntry.getDescription: the editor's description. -/
def EditorPickerEntry.getDescription (e : EditorPickerEntry) : String :=
  e.editor.description

/-- QuickOpenEntry.setHighlights: store the match ranges on the entry. -/
def EditorPickerEntry.setHighlights (e : EditorPickerEntry)
    (labelMatch descriptionMatch : List (Nat × Nat)) : EditorPickerEntry :=
  { e with labelHighlights := labelMatch,
           descriptionHighlights := descriptionMatch }

/-- QuickOpenEntryGroup.setGroupLabel. -/
def EditorPickerEntry.setGroupLabel (e : EditorPickerEntry)
    (l : String) : EditorPickerEntry :=
  { e with groupLabel := some l }

/-- QuickOpenEntryGroup.setShowBorder. -/
def EditorPickerEntry.setShowBorder (e : EditorPickerEntry)
    (b : Bool) : EditorPickerEntry :=
  { e with showBorder := b }

/-- Modelled from the spec: scoreItem (quickOpenScorer, not under src/):
look the item up in the cache by (label, description, query); on a miss
compute the score with the scorer and store it.  Returns the score and
the possibly extended cache. -/
def scoreItem (scorer : Scorer) (e : EditorPickerEntry) (q : String)
    (cache : ScorerCache) : ItemScore × ScorerCache :=
  match cacheLookup (e.editor.name, e.editor.description, q) cache with
  | some s => (s, cache)
  | none =>
      (scorer e.editor.name e.editor.description q,
        ((e.editor.name, e.editor.description, q),
          scorer e.editor.name e.editor.description q) :: cache)

/-- The score value scoreItem returns (cache hit value, else the freshly
computed score). -/
def itemScoreVal (scorer : Scorer) (e : EditorPickerEntry) (q : String)
    (cache : ScorerCache) : ItemScore :=
  (cacheLookup (e.editor.name, e.editor.description, q) cache).getD
    (scorer e.editor.name e.editor.description q)

/-- A cache is coherent with the scorer when every stored value is the
scorer's value for its key; every cache built from the empty cache by
scoreItem is coherent. -/
def Coherent (scorer : Scorer) (cache : ScorerCache) : Prop :=
  ∀ l d q s, ((l, d, q), s) ∈ cache → s = scorer l d q

/-- Array.prototype.indexOf on the creation-ordered group list, with
group identity modelled by the group id: index of the first group with
this id, or -1 when absent. -/
def indexOfGroup (groups : List INextEditorGroup) (gid : Nat) : Int :=
  match groups with
  | [] => -1
  | g :: rest =>
      if g.id = gid then 0
      else
        let r := indexOfGroup rest gid
        if r = -1 then -1 else r + 1

/-- Modelled from the spec: compareItemsByScore (quickOpenScorer, not
under src/) orders two items by descending fuzzy-match score, using the
same score function and cache as filtering. -/
def compareItemsByScore (scorer : Scorer) (e1 e2 : EditorPickerEntry)
    (q : String) (cache : ScorerCache) : Int :=
  ((itemScoreVal scorer e2 q cache).score : Int) -
    ((itemScoreVal scorer e1 q cache).score : Int)

/-- The sort comparator of getResults: entries of different groups are
ordered by the group's position in the creation-ordered group list
(older groups first); entries of the same group by the scorer's
comparison. -/
def cmpEntries (scorer : Scorer) (groups : List INextEditorGroup)
    (q : String) (cache : ScorerCache) (e1 e2 : EditorPickerEntry) : Int :=
  if e1.group.id ≠ e2.group.id then
    indexOfGroup groups e1.group.id - indexOfGroup groups e2.group.id
  else
    compareItemsByScore scorer e1 e2 q cache

/-- Insert into a sorted list: place the element before the first one it
compares less-or-equal to. -/
def orderedInsertB (le : α → α → Bool) (a : α) : List α → List α
  | [] => [a]
  | b :: l => if le a b then a :: b :: l else b :: orderedInsertB le a l

/-- Stable comparator sort, modelling Array.prototype.sort with a
consistent comparator. -/
def insertionSortB (le : α → α → Bool) : List α → List α
  | [] => []
  | a :: l => orderedInsertB le a (insertionSortB le l)

/-- The filter pass of getResults: with an empty normalized query every
entry passes untouched; otherwise each entry is scored through the cache
(threaded left to right), zero-score entries are dropped and surviving
entries get their highlights set from the score result. -/
def filterEntries (scorer : Scorer) (q : String) :
    List EditorPickerEntry → ScorerCache →
      List EditorPickerEntry × ScorerCache
  | [], cache => ([], cache)
  | e :: es, cache =>
      if q = "" then
        let rest := filterEntries scorer q es cache
        (e :: rest.1, rest.2)
      else
        let scored := scoreItem scorer e q cache
        let rest := filterEntries scorer q es scored.2
        if scored.1.score = 0 then rest
        else (e.setHighlights scored.1.labelMatch scored.1.descriptionMatch
                :: rest.1,
              rest.2)

/-- The grouping pass of getResults: walk the list with the previous
entry's group identity; whenever the current entry starts a different
group (or is the very first entry), set its group label and give it a
border exactly when there was a previous group. -/
def groupingPass : List EditorPickerEntry → Option Nat →
    List EditorPickerEntry
  | [], _ => []
  | e :: es, lastGroup =>
      if lastGroup = some e.group.id then
        e :: groupingPass es lastGroup
      else
        ((e.setGroupLabel e.group.label).setShowBorder lastGroup.isSome)
          :: groupingPass es (some e.group.id)

/-- BaseEditorPicker.getResults: returns none (null) when there are no
candidate entries; otherwise filters by fuzzy score (non-empty query
only), sorts survivors by group creation order then descending score
(non-empty query only), runs the grouping pass when the service has more
than one group, and returns the entries together with the updated score
cache. -/
def getResults (scorer : Scorer) (svc : INextEditorGroupsService)
    (cache : ScorerCache) (editorEntries : List EditorPickerEntry)
    (searchValue : String) :
    Option (List EditorPickerEntry) × ScorerCache :=
  if editorEntries.isEmpty then (none, cache)
  else
    let query := prepareQuery searchValue
    let filtered := filterEntries scorer query.value editorEntries cache
    let sorted :=
      if query.value = "" then filtered.1
      else
        insertionSortB
          (fun e1 e2 =>
            decide (cmpEntries scorer (svc.getGroups) query.value
              filtered.2 e1 e2 ≤ 0))
          filtered.1
    let final :=
      if 1 < svc.count then groupingPass sorted none else sorted
    (some final, filtered.2)

/-- BaseEditorPicker.onClose: replace the score cache with an empty
one. -/
def onClose (_canceled : Bool) (_cache : ScorerCache) : ScorerCache :=
  []

/-- The score the deterministic scorer assigns to an entry (canonical,
cache-free reading used in specifications). -/
def scoreOf (scorer : Scorer) (q : String) (e : EditorPickerEntry) : Nat :=
  (scorer e.editor.name e.editor.description q).score

/-- An entry with its highlights set to the scorer's match ranges
(canonical, cache-free reading used in specifications). -/
def withHighlights (scorer : Scorer) (q : String)
    (e : EditorPickerEntry) : EditorPickerEntry :=
  e.setHighlights (scorer e.editor.name e.editor.description q).labelMatch
    (scorer e.editor.name e.editor.description q).descriptionMatch

/-! ### Cache coherence -/

theorem cacheLookup_mem (key : CacheKey) (cache : ScorerCache)
    (s : ItemScore) (h : cacheLookup key cache = some s) :
    (key, s) ∈ cache := by
  induction cache with
  | nil => simp [cacheLookup] at h
  | cons kv rest ih =>
      obtain ⟨k, v⟩ := kv
      simp only [cacheLookup] at h
      by_cases hk : k = key
      · subst hk
        rw [if_pos rfl] at h
        cases h
        exact List.mem_cons_self _ _
      · rw [if_neg hk] at h
        exact List.mem_cons_of_mem _ (ih h)

theorem coherent_empty (scorer : Scorer) : Coherent scorer [] := by
  intro l d q s h
  simp at h

theorem itemScoreVal_coherent (scorer : Scorer) (cache : ScorerCache)
    (hcoh : Coherent scorer cache) (e : EditorPickerEntry) (q : String) :
    itemScoreVal scorer e q cache =
      scorer e.editor.name e.editor.description q := by
  unfold itemScoreVal
  cases h : cacheLookup (e.editor.name, e.editor.description, q) cache with
  | none => rfl
  | some s =>
      simpa using hcoh _ _ _ _ (cacheLookup_mem _ _ _ h)

theorem scoreItem_fst (scorer : Scorer) (e : EditorPickerEntry)
    (q : String) (cache : ScorerCache) :
    (scoreItem scorer e q cache).1 = itemScoreVal scorer e q cache := by
  unfold scoreItem itemScoreVal
  cases h : cacheLookup (e.editor.name, e.editor.description, q) cache <;>
    simp [h]

theorem coherent_scoreItem (scorer : Scorer) (e : EditorPickerEntry)
    (q : String) (cache : ScorerCache) (hcoh : Coherent scorer cache) :
    Coherent scorer (scoreItem scorer e q cache).2 := by
  unfold scoreItem
  cases h : cacheLookup (e.editor.name, e.editor.description, q) cache with
  | some s => simpa [h] using hcoh
  | none =>
      simp only [h]
      intro l d q' s hmem
      rcases List.mem_cons.mp hmem with heq | hmem
      · injection heq with h1 h2
        injection h1 with ha hb
        injection hb with hb1 hb2
        subst ha; subst hb1; subst hb2; subst h2
        rfl
      · exact hcoh _ _ _ _ hmem

/-! ### The filter pass -/

theorem filterEntries_empty_query (scorer : Scorer)
    (es : List EditorPickerEntry) (cache : ScorerCache) :
    filterEntries scorer "" es cache = (es, cache) := by
  induction es with
  | nil => rfl
  | cons e es ih => simp [filterEntries, ih]

theorem filterEntries_fst (scorer : Scorer) (q : String) (hq : q ≠ "")
    (es : List EditorPickerEntry) (cache : ScorerCache)
    (hcoh : Coherent scorer cache) :
    (filterEntries scorer q es cache).1 =
      (es.filter (fun e => scoreOf scorer q e != 0)).map
        (withHighlights scorer q) := by
  induction es generalizing cache with
  | nil => rfl
  | cons e es ih =>
      have hval : (scoreItem scorer e q cache).1 =
          scorer e.editor.name e.editor.description q := by
        rw [scoreItem_fst]
        exact itemScoreVal_coherent scorer cache hcoh e q
      have hcoh' := coherent_scoreItem scorer e q cache hcoh
      simp only [filterEntries, if_neg hq]
      by_cases h0 : (scorer e.editor.name e.editor.description q).score = 0
      · rw [if_pos (by rw [hval]; exact h0)]
        rw [List.filter_cons_of_neg (by simp [scoreOf, h0])]
        exact ih _ hcoh'
      · rw [if_neg (by rw [hval]; exact h0)]
        rw [List.filter_cons_of_pos (by simp [scoreOf, h0])]
        simp only [List.map_cons]
        rw [ih _ hcoh']
        simp [withHighlights, hval]

theorem filterEntries_snd_coherent (scorer : Scorer) (q : String)
    (es : List EditorPickerEntry) (cache : ScorerCache)
    (hcoh : Coherent scorer cache) :
    Coherent scorer (filterEntries scorer q es cache).2 := by
  induction es generalizing cache with
  | nil => exact hcoh
  | cons e es ih =>
      simp only [filterEntries]
      by_cases hq : q = ""
      · rw [if_pos hq]
        exact ih cache hcoh
      · rw [if_neg hq]
        have hcoh' := coherent_scoreItem scorer e q cache hcoh
        by_cases h0 : (scoreItem scorer e q cache).1.score = 0
        · rw [if_pos h0]; exact ih _ hcoh'
        · rw [if_neg h0]; exact ih _ hcoh'

theorem filterEntries_empty_query_snd (scorer : Scorer)
    (es : List EditorPickerEntry) (cache : ScorerCache) :
    (filterEntries scorer "" es cache).2 = cache := by
  rw [filterEntries_empty_query]

/-! ### The sort pass -/

theorem mem_orderedInsertB (le : α → α → Bool) (a b : α) (l : List α) :
    b ∈ orderedInsertB le a l ↔ b = a ∨ b ∈ l := by
  induction l with
  | nil => simp [orderedInsertB]
  | cons c l ih =>
      simp only [orderedInsertB]
      by_cases h : le a c = true
      · simp [h]
      · simp only [if_neg h, List.mem_cons, ih]
        tauto

theorem perm_orderedInsertB (le : α → α → Bool) (a : α) (l : List α) :
    List.Perm (orderedInsertB le a l) (a :: l) := by
  induction l with
  | nil => simp [orderedInsertB]
  | cons c l ih =>
      simp only [orderedInsertB]
      by_cases h : le a c = true
      · simp [h]
      · rw [if_neg h]
        exact List.Perm.trans (List.Perm.cons c ih) (List.Perm.swap a c l)

theorem perm_insertionSortB (le : α → α → Bool) (l : List α) :
    List.Perm (insertionSortB le l) l := by
  induction l with
  | nil => exact List.Perm.refl _
  | cons a l ih =>
      exact List.Perm.trans (perm_orderedInsertB le a (insertionSortB le l))
        (List.Perm.cons a ih)

theorem mem_insertionSortB (le : α → α → Bool) (l : List α) (a : α) :
    a ∈ insertionSortB le l ↔ a ∈ l :=
  (perm_insertionSortB le l).mem_iff

theorem pairwise_orderedInsertB (le : α → α → Bool) (P : α → Prop)
    (total : ∀ a b, P a → P b → le a b = true ∨ le b a = true)
    (htrans : ∀ a b c, P a → P b → P c →
      le a b = true → le b c = true → le a c = true)
    (x : α) (hx : P x) :
    ∀ (l : List α), (∀ a ∈ l, P a) →
      List.Pairwise (fun a b => le a b = true) l →
      List.Pairwise (fun a b => le a b = true) (orderedInsertB le x l)
  | [], _, _ => by simp [orderedInsertB]
  | b :: l, hP, hpair => by
      simp only [orderedInsertB]
      rw [List.pairwise_cons] at hpair
      by_cases h : le x b = true
      · rw [if_pos h]
        refine List.Pairwise.cons ?_ (List.Pairwise.cons hpair.1 hpair.2)
        intro y hy
        rcases List.mem_cons.mp hy with rfl | hy
        · exact h
        · exact htrans x b y hx (hP b (List.mem_cons_self _ _))
            (hP y (List.mem_cons_of_mem _ hy)) h (hpair.1 y hy)
      · rw [if_neg h]
        refine List.Pairwise.cons ?_
          (pairwise_orderedInsertB le P total htrans x hx l
            (fun a ha => hP a (List.mem_cons_of_mem _ ha)) hpair.2)
        intro y hy
        rcases (mem_orderedInsertB le x y l).mp hy with heq | hy
        · rw [heq]
          rcases total x b hx (hP b (List.mem_cons_self _ _)) with h' | h'
          · exact absurd h' h
          · exact h'
        · exact hpair.1 y hy

/-! ### The comparator -/

theorem indexOfGroup_ge (groups : List INextEditorGroup) (gid : Nat) :
    -1 ≤ indexOfGroup groups gid := by
  induction groups with
  | nil => simp [indexOfGroup]
  | cons g rest ih =>
      simp only [indexOfGroup]
      by_cases h : g.id = gid
      · simp [h]
      · rw [if_neg h]
        by_cases h2 : indexOfGroup rest gid = -1
        · simp [h2]
        · rw [if_neg h2]
          omega

theorem indexOfGroup_nonneg (groups : List INextEditorGroup) (gid : Nat)
    (h : ∃ g ∈ groups, g.id = gid) : 0 ≤ indexOfGroup groups gid := by
  induction groups with
  | nil => simp at h
  | cons g rest ih =>
      simp only [indexOfGroup]
      by_cases hg : g.id = gid
      · simp [hg]
      · rcases h with ⟨g', hg', hid⟩
        rcases List.mem_cons.mp hg' with heq | hmem
        · rw [heq] at hid; exact absurd hid hg
        · have hr := ih ⟨g', hmem, hid⟩
          rw [if_neg hg, if_neg (by omega)]
          omega

theorem indexOfGroup_inj (groups : List INextEditorGroup) (a b : Nat)
    (ha : 0 ≤ indexOfGroup groups a)
    (heq : indexOfGroup groups a = indexOfGroup groups b) : a = b := by
  induction groups with
  | nil => simp [indexOfGroup] at ha
  | cons g rest ih =>
      simp only [indexOfGroup] at ha heq
      by_cases hga : g.id = a
      · by_cases hgb : g.id = b
        · omega
        · rw [if_pos hga, if_neg hgb] at heq
          by_cases h2 : indexOfGroup rest b = -1
          · rw [if_pos h2] at heq; omega
          · rw [if_neg h2] at heq
            have := indexOfGroup_ge rest b
            omega
      · rw [if_neg hga] at ha heq
        by_cases h2 : indexOfGroup rest a = -1
        · rw [if_pos h2] at ha; omega
        · rw [if_neg h2] at ha heq
          by_cases hgb : g.id = b
          · rw [if_pos hgb] at heq
            have := indexOfGroup_ge rest a
            omega
          · rw [if_neg hgb] at heq
            by_cases h3 : indexOfGroup rest b = -1
            · rw [if_pos h3] at heq
              have := indexOfGroup_ge rest a
              omega
            · rw [if_neg h3] at heq
              have ha' : 0 ≤ indexOfGroup rest a := by
                have := indexOfGroup_ge rest a
                omega
              exact ih ha' (by omega)

/-- An entry's owning group occurs in the service's group list; true of
every entry the pickers build, since their groups come from the same
service. -/
abbrev GroupPresent (groups : List INextEditorGroup)
    (e : EditorPickerEntry) : Prop :=
  ∃ g ∈ groups, g.id = e.group.id

theorem cmpEntries_eq_of_ne (scorer : Scorer)
    (groups : List INextEditorGroup) (q : String) (cache : ScorerCache)
    (e1 e2 : EditorPickerEntry) (h : e1.group.id ≠ e2.group.id) :
    cmpEntries scorer groups q cache e1 e2 =
      indexOfGroup groups e1.group.id - indexOfGroup groups e2.group.id := by
  unfold cmpEntries
  rw [if_pos h]

theorem cmpEntries_eq_of_eq (scorer : Scorer)
    (groups : List INextEditorGroup) (q : String) (cache : ScorerCache)
    (e1 e2 : EditorPickerEntry) (h : e1.group.id = e2.group.id) :
    cmpEntries scorer groups q cache e1 e2 =
      ((itemScoreVal scorer e2 q cache).score : Int) -
        ((itemScoreVal scorer e1 q cache).score : Int) := by
  unfold cmpEntries compareItemsByScore
  rw [if_neg (by simp [h])]

theorem cmpEntries_neg (scorer : Scorer) (groups : List INextEditorGroup)
    (q : String) (cache : ScorerCache) (e1 e2 : EditorPickerEntry) :
    cmpEntries scorer groups q cache e1 e2 =
      -cmpEntries scorer groups q cache e2 e1 := by
  by_cases h : e1.group.id = e2.group.id
  · rw [cmpEntries_eq_of_eq scorer groups q cache e1 e2 h,
      cmpEntries_eq_of_eq scorer groups q cache e2 e1 h.symm]
    omega
  · rw [cmpEntries_eq_of_ne scorer groups q cache e1 e2 h,
      cmpEntries_eq_of_ne scorer groups q cache e2 e1 (Ne.symm h)]
    omega

theorem cmpEntries_total (scorer : Scorer) (groups : List INextEditorGroup)
    (q : String) (cache : ScorerCache) (e1 e2 : EditorPickerEntry) :
    cmpEntries scorer groups q cache e1 e2 ≤ 0 ∨
      cmpEntries scorer groups q cache e2 e1 ≤ 0 := by
  have := cmpEntries_neg scorer groups q cache e1 e2
  omega

theorem cmpEntries_trans (scorer : Scorer) (groups : List INextEditorGroup)
    (q : String) (cache : ScorerCache) (a b c : EditorPickerEntry)
    (ha : GroupPresent groups a) (hb : GroupPresent groups b)
    (h1 : cmpEntries scorer groups q cache a b ≤ 0)
    (h2 : cmpEntries scorer groups q cache b c ≤ 0) :
    cmpEntries scorer groups q cache a c ≤ 0 := by
  by_cases hab : a.group.id = b.group.id <;>
    by_cases hbc : b.group.id = c.group.id
  · rw [cmpEntries_eq_of_eq scorer groups q cache a b hab] at h1
    rw [cmpEntries_eq_of_eq scorer groups q cache b c hbc] at h2
    rw [cmpEntries_eq_of_eq scorer groups q cache a c (hab.trans hbc)]
    omega
  · have hac : a.group.id ≠ c.group.id := by rw [hab]; exact hbc
    rw [cmpEntries_eq_of_ne scorer groups q cache b c hbc] at h2
    rw [cmpEntries_eq_of_ne scorer groups q cache a c hac, hab]
    omega
  · have hac : a.group.id ≠ c.group.id := by rw [← hbc]; exact hab
    rw [cmpEntries_eq_of_ne scorer groups q cache a b hab] at h1
    rw [cmpEntries_eq_of_ne scorer groups q cache a c hac, ← hbc]
    omega
  · rw [cmpEntries_eq_of_ne scorer groups q cache a b hab] at h1
    rw [cmpEntries_eq_of_ne scorer groups q cache b c hbc] at h2
    by_cases hac : a.group.id = c.group.id
    · exfalso
      have hia : 0 ≤ indexOfGroup groups a.group.id :=
        indexOfGroup_nonneg groups a.group.id ha
      have hib : 0 ≤ indexOfGroup groups b.group.id :=
        indexOfGroup_nonneg groups b.group.id hb
      have hiac : indexOfGroup groups a.group.id =
          indexOfGroup groups c.group.id := by rw [hac]
      have : indexOfGroup groups a.group.id =
          indexOfGroup groups b.group.id := by omega
      exact hab (indexOfGroup_inj groups a.group.id b.group.id hia this)
    · rw [cmpEntries_eq_of_ne scorer groups q cache a c hac]
      omega

/-! ### The grouping pass -/

/-- The fields of an entry the grouping pass leaves untouched: the
wrapped editor, the owning group and the highlight ranges. -/
structure EntryCore where
  editor : EditorInput
  group : INextEditorGroup
  labelHighlights : List (Nat × Nat)
  descriptionHighlights : List (Nat × Nat)
deriving DecidableEq, Repr

/-- Project an entry to its grouping-independent core. -/
def coreOf (e : EditorPickerEntry) : EntryCore :=
  ⟨e.editor, e.group, e.labelHighlights, e.descriptionHighlights⟩

theorem groupingPass_map_core (l : List EditorPickerEntry)
    (lastGroup : Option Nat) :
    (groupingPass l lastGroup).map coreOf = l.map coreOf := by
  induction l generalizing lastGroup with
  | nil => rfl
  | cons e es ih =>
      simp only [groupingPass]
      by_cases h : lastGroup = some e.group.id
      · rw [if_pos h]
        simp [ih]
      · rw [if_neg h]
        simp only [List.map_cons, ih]
        simp [coreOf, EditorPickerEntry.setGroupLabel,
          EditorPickerEntry.setShowBorder]

/-- A fresh entry: no group label and no border yet.  Entries built by
getEditorEntries are fresh. -/
def Fresh (e : EditorPickerEntry) : Prop :=
  e.groupLabel = none ∧ e.showBorder = false

/-- Adjacent-entry relation established by the grouping pass on fresh
input: an entry continuing its predecessor's group keeps no label and no
border; an entry starting a new group carries its group's label and a
border. -/
def annotRel (a b : EditorPickerEntry) : Prop :=
  if a.group.id = b.group.id then
    b.groupLabel = none ∧ b.showBorder = false
  else
    b.groupLabel = some b.group.label ∧ b.showBorder = true

theorem fresh_filterEntries (scorer : Scorer) (q : String)
    (es : List EditorPickerEntry) (cache : ScorerCache)
    (hfresh : ∀ e ∈ es, Fresh e) :
    ∀ e ∈ (filterEntries scorer q es cache).1, Fresh e := by
  induction es generalizing cache with
  | nil => intro e he; simp [filterEntries] at he
  | cons e es ih =>
      intro x hx
      simp only [filterEntries] at hx
      by_cases hq : q = ""
      · rw [if_pos hq] at hx
        rcases List.mem_cons.mp hx with heq | hmem
        · exact heq ▸ hfresh e (List.mem_cons_self _ _)
        · exact ih _ (fun a ha => hfresh a (List.mem_cons_of_mem _ ha)) x hmem
      · rw [if_neg hq] at hx
        by_cases h0 : (scoreItem scorer e q cache).1.score = 0
        · rw [if_pos h0] at hx
          exact ih _ (fun a ha => hfresh a (List.mem_cons_of_mem _ ha)) x hx
        · rw [if_neg h0] at hx
          rcases List.mem_cons.mp hx with heq | hmem
          · have := hfresh e (List.mem_cons_self _ _)
            rw [heq]
            exact this
          · exact ih _ (fun a ha => hfresh a (List.mem_cons_of_mem _ ha))
              x hmem

theorem groupingPass_chain_some (l : List EditorPickerEntry)
    (hfresh : ∀ e ∈ l, Fresh e) :
    ∀ g : Nat,
      List.Chain' annotRel (groupingPass l (some g)) ∧
      (∀ h, (groupingPass l (some g)).head? = some h →
        (h.group.id ≠ g →
          h.groupLabel = some h.group.label ∧ h.showBorder = true) ∧
        (h.group.id = g →
          h.groupLabel = none ∧ h.showBorder = false)) := by
  induction l with
  | nil =>
      intro g
      constructor
      · simp [groupingPass]
      · intro h hh; simp [groupingPass] at hh
  | cons e es ih =>
      intro g
      have hfe := hfresh e (List.mem_cons_self _ _)
      have hfes := fun a ha => hfresh a (List.mem_cons_of_mem _ ha)
      have ihe := ih hfes e.group.id
      by_cases hg : g = e.group.id
      · -- the entry continues the previous group: untouched
        subst hg
        constructor
        · simp only [groupingPass, if_true]
          rw [List.chain'_cons']
          refine ⟨?_, ihe.1⟩
          intro t ht
          rw [Option.mem_def] at ht
          have := ihe.2 t ht
          unfold annotRel
          by_cases hteq : t.group.id = e.group.id
          · rw [if_pos hteq.symm]
            exact this.2 hteq
          · rw [if_neg (fun hc => hteq hc.symm)]
            exact this.1 hteq
        · intro h hh
          simp only [groupingPass, if_true, List.head?_cons] at hh
          have hh' := Option.some.inj hh
          subst hh'
          constructor
          · intro hne; exact absurd rfl hne
          · intro _; exact hfe
      · -- the entry starts a new group: annotated with a border
        have hcond : ¬ ((some g : Option Nat) = some e.group.id) := by
          intro hc; exact hg (Option.some.inj hc)
        constructor
        · simp only [groupingPass, if_neg hcond]
          rw [List.chain'_cons']
          refine ⟨?_, ihe.1⟩
          intro t ht
          rw [Option.mem_def] at ht
          have := ihe.2 t ht
          unfold annotRel
          simp only [EditorPickerEntry.setShowBorder,
            EditorPickerEntry.setGroupLabel]
          by_cases hteq : t.group.id = e.group.id
          · rw [if_pos hteq.symm]
            exact this.2 hteq
          · rw [if_neg (fun hc => hteq hc.symm)]
            exact this.1 hteq
        · intro h hh
          simp only [groupingPass, if_neg hcond, List.head?_cons] at hh
          have hh' := Option.some.inj hh
          constructor
          · intro _
            rw [← hh']
            simp [EditorPickerEntry.setShowBorder,
              EditorPickerEntry.setGroupLabel, Option.isSome]
          · intro heq
            rw [← hh'] at heq
            simp only [EditorPickerEntry.setShowBorder,
              EditorPickerEntry.setGroupLabel] at heq
            exact absurd heq.symm hg

theorem groupingPass_none (l : List EditorPickerEntry)
    (hfresh : ∀ e ∈ l, Fresh e) :
    List.Chain' annotRel (groupingPass l none) ∧
    (∀ h, (groupingPass l none).head? = some h →
      h.showBorder = false ∧ h.groupLabel = some h.group.label) := by
  cases l with
  | nil =>
      constructor
      · simp [groupingPass]
      · intro h hh; simp [groupingPass] at hh
  | cons e es =>
      have hfes := fun a ha => hfresh a (List.mem_cons_of_mem e ha)
      have ihe := groupingPass_chain_some es hfes e.group.id
      have hcond : ¬ ((none : Option Nat) = some e.group.id) := by
        simp
      constructor
      · simp only [groupingPass, if_neg hcond]
        rw [List.chain'_cons']
        refine ⟨?_, ihe.1⟩
        intro t ht
        rw [Option.mem_def] at ht
        have := ihe.2 t ht
        unfold annotRel
        simp only [EditorPickerEntry.setShowBorder,
          EditorPickerEntry.setGroupLabel]
        by_cases hteq : t.group.id = e.group.id
        · rw [if_pos hteq.symm]
          exact this.2 hteq
        · rw [if_neg (fun hc => hteq hc.symm)]
          exact this.1 hteq
      · intro h hh
        simp only [groupingPass, if_neg hcond, List.head?_cons] at hh
        have hh' := Option.some.inj hh
        rw [← hh']
        simp [EditorPickerEntry.setShowBorder,
          EditorPickerEntry.setGroupLabel, Option.isSome]

/-! ### Characterizations of getResults -/

theorem getResults_nil (scorer : Scorer) (svc : INextEditorGroupsService)
    (cache : ScorerCache) (s : String) :
    getResults scorer svc cache [] s = (none, cache) := rfl

theorem getResults_empty_query (scorer : Scorer)
    (svc : INextEditorGroupsService) (cache : ScorerCache)
    (es : List EditorPickerEntry) (s : String)
    (hne : es ≠ []) (hq : (trimString s) = "") :
    getResults scorer svc cache es s =
      (some (if 1 < svc.count then groupingPass es none else es),
        cache) := by
  unfold getResults
  rw [if_neg (by simpa [List.isEmpty_iff] using hne)]
  simp only [prepareQuery, hq]
  rw [filterEntries_empty_query]
  simp

theorem getResults_query (scorer : Scorer)
    (svc : INextEditorGroupsService) (cache : ScorerCache)
    (es : List EditorPickerEntry) (s : String)
    (hne : es ≠ []) (hq : (trimString s) ≠ "") :
    getResults scorer svc cache es s =
      (some (if 1 < svc.count then
          groupingPass
            (insertionSortB
              (fun e1 e2 => decide (cmpEntries scorer svc.getGroups (trimString s)
                (filterEntries scorer (trimString s) es cache).2 e1 e2 ≤ 0))
              (filterEntries scorer (trimString s) es cache).1) none
        else
          insertionSortB
            (fun e1 e2 => decide (cmpEntries scorer svc.getGroups (trimString s)
              (filterEntries scorer (trimString s) es cache).2 e1 e2 ≤ 0))
            (filterEntries scorer (trimString s) es cache).1),
        (filterEntries scorer (trimString s) es cache).2) := by
  unfold getResults
  rw [if_neg (by simpa [List.isEmpty_iff] using hne)]
  simp only [prepareQuery]
  rw [if_neg hq]

theorem pairwise_insertionSortB (le : α → α → Bool) (P : α → Prop)
    (total : ∀ a b, P a → P b → le a b = true ∨ le b a = true)
    (htrans : ∀ a b c, P a → P b → P c →
      le a b = true → le b c = true → le a c = true) :
    ∀ (l : List α), (∀ a ∈ l, P a) →
      List.Pairwise (fun a b => le a b = true) (insertionSortB le l)
  | [], _ => List.Pairwise.nil
  | a :: l, hP => by
      refine pairwise_orderedInsertB le P total htrans a
        (hP a (List.mem_cons_self _ _)) (insertionSortB le l) ?_ ?_
      · intro b hb
        exact hP b (List.mem_cons_of_mem _
          ((mem_insertionSortB le l b).mp hb))
      · exact pairwise_insertionSortB le P total htrans l
          (fun b hb => hP b (List.mem_cons_of_mem _ hb))

/-! ### Entry activation -/

/-- Mode from vs/base/parts/quickopen/common/quickOpen. -/
inductive Mode where
  | PREVIEW
  | OPEN
  | OPEN_IN_BACKGROUND
deriving DecidableEq, Repr

/-- The observable outcome of running an entry: which editor (group id,
editor id) was requested to open, if any, and the boolean returned to
the host. -/
structure RunEffect where
  openedEditor : Option (Nat × Nat)
  result : Bool
deriving DecidableEq, Repr

/-- EditorPickerEntry.runOpen: asks the owning group to open the wrapped
editor and returns true.  The boolean outcome of the delegation
(openResult, the success or failure of group.openEditor) is discarded by
the code. -/
def EditorPickerEntry.runOpen (e : EditorPickerEntry)
    (_openResult : Bool) : RunEffect :=
  { openedEditor := some (e.group.id, e.editor.id), result := true }

/-- EditorPickerEntry.run: on Mode.OPEN delegate to runOpen; on any
other mode fall back to the superclass behaviour. -/
def EditorPickerEntry.run (e : EditorPickerEntry) (openResult : Bool)
    (mode : Mode) (superRun : RunEffect) : RunEffect :=
  match mode with
  | Mode.OPEN => e.runOpen openResult
  | _ => superRun

/-! ### Candidate enumeration and auto focus -/

/-- Build one picker entry for an editor in a group (the
instantiationService.createInstance call). -/
def mkEntry (editor : EditorInput) (g : INextEditorGroup) :
    EditorPickerEntry :=
  { editor := editor, group := g }

/-- ActiveEditorGroupPicker.getEditorEntries: the active group's editors
in most-recently-active order, each wrapped in a picker entry. -/
def ActiveEditorGroupPicker.getEditorEntries (activeGroup : INextEditorGroup) :
    List EditorPickerEntry :=
  activeGroup.mruEditors.map (fun editor => mkEntry editor activeGroup)

/-- One keybinding part (shift modifier is all the picker inspects). -/
structure KeybindingPart where
  shiftKey : Bool
deriving DecidableEq, Repr

/-- A resolved keybinding: a first part and an optional chord part
(getParts). -/
structure Keybinding where
  firstPart : KeybindingPart
  chordPart : Option KeybindingPart
deriving DecidableEq, Repr

/-- IQuickNavigateConfiguration: the keybindings of the quick-navigate
context. -/
structure IQuickNavigateConfiguration where
  keybindings : List Keybinding
deriving DecidableEq, Repr

/-- IAutoFocus: the declarative focus instruction returned to the host;
fields left unset by the code are false. -/
structure IAutoFocus where
  autoFocusFirstEntry : Bool := false
  autoFocusSecondEntry : Bool := false
  autoFocusLastEntry : Bool := false
deriving DecidableEq, Repr

/-- The shift-navigate test of ActiveEditorGroupPicker.getAutoFocus:
some keybinding whose parts have no chord part and whose first part
holds shift. -/
def isShiftNavigate (cfg : IQuickNavigateConfiguration) : Bool :=
  cfg.keybindings.any fun k =>
    match k.chordPart with
    | some _ => false
    | none => k.firstPart.shiftKey

/-- ActiveEditorGroupPicker.getAutoFocus: first entry when the search
value is non-empty or no quick-navigate configuration is present;
otherwise last entry for a plain shift keybinding; otherwise first entry
for a single-editor group and second entry for a larger group. -/
def ActiveEditorGroupPicker.getAutoFocus (group : INextEditorGroup)
    (searchValue : String)
    (quickNavigateConfiguration : Option IQuickNavigateConfiguration) :
    IAutoFocus :=
  match quickNavigateConfiguration with
  | none => { autoFocusFirstEntry := true }
  | some cfg =>
      if searchValue ≠ "" then { autoFocusFirstEntry := true }
      else if isShiftNavigate cfg then { autoFocusLastEntry := true }
      else
        { autoFocusFirstEntry := decide (group.count = 1),
          autoFocusSecondEntry := decide (1 < group.count) }

/-- AllEditorsPicker.getAutoFocus: first entry for a non-empty search
value; otherwise the superclass policy.  Modelled from the spec: the
superclass implementation (QuickOpenHandler.getAutoFocus, not under
src/) is, per the spec, the single-group variant's policy, so the empty
case defers to ActiveEditorGroupPicker.getAutoFocus. -/
def AllEditorsPicker.getAutoFocus (activeGroup : INextEditorGroup)
    (searchValue : String)
    (quickNavigateConfiguration : Option IQuickNavigateConfiguration) :
    IAutoFocus :=
  if searchValue ≠ "" then { autoFocusFirstEntry := true }
  else ActiveEditorGroupPicker.getAutoFocus activeGroup searchValue
    quickNavigateConfiguration

/-! ### Concrete fixtures used by the witnesses -/

/-- Demo editor whose label scores 3 against the demo query. -/
def edHigh : EditorInput := ⟨1, "a1", "d1"⟩

/-- Demo editor whose label scores 2 against the demo query. -/
def edMid : EditorInput := ⟨2, "a2", "d2"⟩

/-- Demo editor whose label scores 1 against the demo query. -/
def edLow : EditorInput := ⟨3, "a3", "d3"⟩

/-- Demo editor that does not match the demo query. -/
def edNone : EditorInput := ⟨4, "zz", "d4"⟩

/-- Demo group 1 (created first). -/
def grp1 : INextEditorGroup :=
  ⟨1, "Group 1", [edMid, edLow, edNone], [edMid, edLow, edNone], some edMid⟩

/-- Demo group 2 (created second). -/
def grp2 : INextEditorGroup := ⟨2, "Group 2", [edHigh], [edHigh], some edHigh⟩

/-- Demo service holding only group 1. -/
def svcOne : INextEditorGroupsService := ⟨[grp1]⟩

/-- Demo service holding groups 1 and 2 in creation order. -/
def svcTwo : INextEditorGroupsService := ⟨[grp1, grp2]⟩

/-- Demo deterministic scorer: fixed scores for the demo labels against
the query "a", zero otherwise. -/
def demoScorer : Scorer := fun l _d q =>
  if q = "a" ∧ l = "a1" then ⟨3, [(0, 1)], []⟩
  else if q = "a" ∧ l = "a2" then ⟨2, [(0, 1)], [(1, 2)]⟩
  else if q = "a" ∧ l = "a3" then ⟨1, [(0, 1)], []⟩
  else ⟨0, [], []⟩

/-- Demo quick-navigate configuration with a plain shift binding. -/
def qnavShift : IQuickNavigateConfiguration := ⟨[⟨⟨true⟩, none⟩]⟩

/-- Demo quick-navigate configuration with no shift binding. -/
def qnavPlain : IQuickNavigateConfiguration := ⟨[⟨⟨false⟩, none⟩]⟩

/-! ### Claims -/

/-- C6: onClose replaces the score cache with an empty cache, so after
onClose every cache lookup misses — for any entry and any query,
including one already scored before close — and the next scoreItem
recomputes the score from scratch with the scorer and stores it in a
fresh cache. -/
theorem onClose_clears_cache (canceled : Bool) (cache : ScorerCache)
    (scorer : Scorer) (e : EditorPickerEntry) (q : String) :
    onClose canceled cache = [] ∧
    cacheLookup (e.editor.name, e.editor.description, q)
      (onClose canceled cache) = none ∧
    scoreItem scorer e q (onClose canceled cache) =
      (scorer e.editor.name e.editor.description q,
        [((e.editor.name, e.editor.description, q),
          scorer e.editor.name e.editor.description q)]) :=
  ⟨rfl, rfl, rfl⟩

/-- C5 counterexample: run with Mode.OPEN does not surface the
delegation outcome: with a failing delegation (openResult = false) it
still returns true, so the returned boolean is not the success or
failure of the delegation. -/
theorem run_open_counterexample :
    ((mkEntry edHigh grp1).run false Mode.OPEN
      { openedEditor := none, result := false }).result = true ∧
    ¬ (((mkEntry edHigh grp1).run false Mode.OPEN
      { openedEditor := none, result := false }).result = false) := by
  constructor
  · rfl
  · intro h; cases h

/-- C5 (amended): activating an entry with Mode.OPEN delegates opening
the wrapped editor to the owning group, and returns true to the host
regardless of the delegation's outcome (the result of group.openEditor
is discarded). -/
theorem run_open_delegates_and_returns_true (e : EditorPickerEntry)
    (openResult : Bool) (superRun : RunEffect) :
    (e.run openResult Mode.OPEN superRun).openedEditor =
      some (e.group.id, e.editor.id) ∧
    (e.run openResult Mode.OPEN superRun).result = true :=
  ⟨rfl, rfl⟩

/-- C8: the single-group picker's auto focus: first entry whenever the
search string is non-empty or no quick-navigate configuration is
present; otherwise last entry if some quick-navigate keybinding is a
non-chorded binding with the shift modifier; otherwise first entry for
a group with exactly one editor and second entry for a larger group. -/
theorem activeGroupPicker_autoFocus_policy (group : INextEditorGroup)
    (searchValue : String)
    (qnav : Option IQuickNavigateConfiguration) :
    ((searchValue ≠ "" ∨ qnav = none) →
      ActiveEditorGroupPicker.getAutoFocus group searchValue qnav =
        { autoFocusFirstEntry := true }) ∧
    (∀ cfg, qnav = some cfg → searchValue = "" →
      isShiftNavigate cfg = true →
      ActiveEditorGroupPicker.getAutoFocus group searchValue qnav =
        { autoFocusLastEntry := true }) ∧
    (∀ cfg, qnav = some cfg → searchValue = "" →
      isShiftNavigate cfg = false →
      ((group.count = 1 →
        ActiveEditorGroupPicker.getAutoFocus group searchValue qnav =
          { autoFocusFirstEntry := true }) ∧
       (1 < group.count →
        ActiveEditorGroupPicker.getAutoFocus group searchValue qnav =
          { autoFocusSecondEntry := true }))) := by
  refine ⟨?_, ?_, ?_⟩
  · intro h
    cases qnav with
    | none => rfl
    | some cfg =>
        rcases h with h | h
        · simp [ActiveEditorGroupPicker.getAutoFocus, h]
        · cases h
  · intro cfg hq hs hsh
    subst hq; subst hs
    simp [ActiveEditorGroupPicker.getAutoFocus, hsh]
  · intro cfg hq hs hsh
    subst hq; subst hs
    constructor
    · intro h1
      have h2 : ¬ 1 < group.count := by omega
      simp [ActiveEditorGroupPicker.getAutoFocus, hsh, h1, h2]
    · intro h1
      have h2 : group.count ≠ 1 := by omega
      simp [ActiveEditorGroupPicker.getAutoFocus, hsh, h1, h2]

/-- Witness for C8: the three branches of the policy at concrete
inputs (group 1 has three editors, so the plain quick-navigate case
focuses the second entry). -/
theorem activeGroupPicker_autoFocus_policy_witness :
    ActiveEditorGroupPicker.getAutoFocus grp1 "x" none =
      { autoFocusFirstEntry := true } ∧
    ActiveEditorGroupPicker.getAutoFocus grp1 "" (some qnavShift) =
      { autoFocusLastEntry := true } ∧
    ActiveEditorGroupPicker.getAutoFocus grp1 "" (some qnavPlain) =
      { autoFocusSecondEntry := true } :=
  ⟨(activeGroupPicker_autoFocus_policy grp1 "x" none).1 (Or.inr rfl),
   (activeGroupPicker_autoFocus_policy grp1 "" (some qnavShift)).2.1
      qnavShift rfl rfl (by decide),
   ((activeGroupPicker_autoFocus_policy grp1 "" (some qnavPlain)).2.2
      qnavPlain rfl rfl (by decide)).2 (by decide)⟩

/-- C9: the all-groups picker's auto focus is first entry for every
non-empty search string, and for an empty search string it is exactly
the single-group variant's policy in the same context (the superclass
fallback is modelled from the spec). -/
theorem allEditorsPicker_autoFocus_policy (activeGroup : INextEditorGroup)
    (searchValue : String)
    (qnav : Option IQuickNavigateConfiguration) :
    (searchValue ≠ "" →
      AllEditorsPicker.getAutoFocus activeGroup searchValue qnav =
        { autoFocusFirstEntry := true }) ∧
    (searchValue = "" →
      AllEditorsPicker.getAutoFocus activeGroup searchValue qnav =
        ActiveEditorGroupPicker.getAutoFocus activeGroup searchValue
          qnav) := by
  constructor
  · intro h
    simp [AllEditorsPicker.getAutoFocus, h]
  · intro h
    subst h
    simp [AllEditorsPicker.getAutoFocus]

/-- Witness for C9: both branches at concrete inputs. -/
theorem allEditorsPicker_autoFocus_policy_witness :
    AllEditorsPicker.getAutoFocus grp1 "x" none =
      { autoFocusFirstEntry := true } ∧
    AllEditorsPicker.getAutoFocus grp1 "" (some qnavShift) =
      ActiveEditorGroupPicker.getAutoFocus grp1 "" (some qnavShift) :=
  ⟨(allEditorsPicker_autoFocus_policy grp1 "x" none).1 (by decide),
   (allEditorsPicker_autoFocus_policy grp1 "" (some qnavShift)).2 rfl⟩

/-- With an empty or whitespace-only search string, getResults keeps
every candidate, in order, with editor, group and highlights unchanged
(only the grouping annotations may change), and the cache untouched. -/
theorem getResults_whitespace_core (scorer : Scorer)
    (svc : INextEditorGroupsService) (cache : ScorerCache)
    (es : List EditorPickerEntry) (s : String) (hq : (trimString s) = "") :
    ((getResults scorer svc cache es s).1.getD []).map coreOf =
      es.map coreOf ∧
    (getResults scorer svc cache es s).2 = cache := by
  cases es with
  | nil => constructor <;> simp [getResults_nil]
  | cons e es' =>
      rw [getResults_empty_query scorer svc cache (e :: es') s (by simp) hq]
      constructor
      · simp only [Option.getD_some]
        by_cases hc : 1 < svc.count
        · rw [if_pos hc]
          exact groupingPass_map_core _ none
        · rw [if_neg hc]
      · rfl

/-- C2: for every empty or whitespace-only search string and every
candidate list, getResults returns the full candidate set in the
original input order (no sorting applied), with every entry's highlight
ranges — and its editor and group — unchanged, and leaves the score
cache untouched. -/
theorem whitespace_query_matches_everything (scorer : Scorer)
    (svc : INextEditorGroupsService) (cache : ScorerCache)
    (es : List EditorPickerEntry) (s : String) (hq : (trimString s) = "") :
    ((getResults scorer svc cache es s).1.getD []).map coreOf =
      es.map coreOf ∧
    (getResults scorer svc cache es s).2 = cache :=
  getResults_whitespace_core scorer svc cache es s hq

/-- Witness for C2: a whitespace-only search string on a concrete
candidate list. -/
theorem whitespace_query_matches_everything_witness :
    ((getResults demoScorer svcTwo []
        [mkEntry edMid grp1, mkEntry edHigh grp2] "  ").1.getD []).map
        coreOf =
      [mkEntry edMid grp1, mkEntry edHigh grp2].map coreOf ∧
    (getResults demoScorer svcTwo []
        [mkEntry edMid grp1, mkEntry edHigh grp2] "  ").2 = [] :=
  whitespace_query_matches_everything demoScorer svcTwo []
    [mkEntry edMid grp1, mkEntry edHigh grp2] "  " (by decide)

/-- C10: the single-group picker builds its candidate list from the
active group's editors in most-recently-active order, so with an empty
or whitespace-only query the result is exactly that list in the same
order; with the most-recently-active invariant of the external group
model (modelled from the spec: the active editor comes first, hypothesis
hmru) the first result wraps the currently active editor. -/
theorem activeGroupPicker_mru_order (scorer : Scorer)
    (svc : INextEditorGroupsService) (cache : ScorerCache)
    (g : INextEditorGroup) (s : String) (hq : (trimString s) = "")
    (hmru : g.mruEditors.head? = g.activeEditor) :
    (ActiveEditorGroupPicker.getEditorEntries g).map
        (fun e => e.editor) = g.mruEditors ∧
    ((getResults scorer svc cache
        (ActiveEditorGroupPicker.getEditorEntries g) s).1.getD []).map
        (fun e => e.editor) = g.mruEditors ∧
    (((getResults scorer svc cache
        (ActiveEditorGroupPicker.getEditorEntries g) s).1.getD []).map
        (fun e => e.editor)).head? = g.activeEditor := by
  have hmap : ∀ l : List EditorPickerEntry,
      l.map (fun e => e.editor) =
        (l.map coreOf).map (fun c => c.editor) := by
    intro l
    rw [List.map_map]
    rfl
  have h1 : (ActiveEditorGroupPicker.getEditorEntries g).map
      (fun e => e.editor) = g.mruEditors := by
    simp only [ActiveEditorGroupPicker.getEditorEntries, List.map_map]
    exact List.map_id _
  have hcore := (getResults_whitespace_core scorer svc cache
    (ActiveEditorGroupPicker.getEditorEntries g) s hq).1
  have h2 : ((getResults scorer svc cache
      (ActiveEditorGroupPicker.getEditorEntries g) s).1.getD []).map
      (fun e => e.editor) = g.mruEditors := by
    rw [hmap, hcore, ← hmap, h1]
  exact ⟨h1, h2, by rw [h2, hmru]⟩

/-- Witness for C10: the active group's three editors, empty query. -/
theorem activeGroupPicker_mru_order_witness :
    (ActiveEditorGroupPicker.getEditorEntries grp1).map
        (fun e => e.editor) = grp1.mruEditors ∧
    ((getResults demoScorer svcOne []
        (ActiveEditorGroupPicker.getEditorEntries grp1) "").1.getD []).map
        (fun e => e.editor) = grp1.mruEditors ∧
    (((getResults demoScorer svcOne []
        (ActiveEditorGroupPicker.getEditorEntries grp1) "").1.getD []).map
        (fun e => e.editor)).head? = grp1.activeEditor :=
  activeGroupPicker_mru_order demoScorer svcOne [] grp1 "" (by decide)
    (by decide)

/-- Entries surviving the filter pass come from the candidates: each one
is a candidate with nonzero score, with its highlights set. -/
theorem mem_filterEntries_elim (scorer : Scorer) (q : String) (hq : q ≠ "")
    (es : List EditorPickerEntry) (cache : ScorerCache)
    (hcoh : Coherent scorer cache) (x : EditorPickerEntry)
    (hx : x ∈ (filterEntries scorer q es cache).1) :
    ∃ e ∈ es, scoreOf scorer q e ≠ 0 ∧ x = withHighlights scorer q e := by
  rw [filterEntries_fst scorer q hq es cache hcoh] at hx
  rcases List.mem_map.mp hx with ⟨e, he, hxe⟩
  rcases List.mem_filter.mp he with ⟨hees, hscore⟩
  exact ⟨e, hees, by simpa using hscore, hxe.symm⟩

/-- Entries of a getResults result (non-empty query) come from the
candidates: each has, up to grouping annotations, the shape of a
nonzero-score candidate with highlights set. -/
theorem mem_getResults_elim (scorer : Scorer)
    (svc : INextEditorGroupsService) (cache : ScorerCache)
    (es : List EditorPickerEntry) (s : String) (x : EditorPickerEntry)
    (hq : (trimString s) ≠ "") (hcoh : Coherent scorer cache)
    (hx : x ∈ (getResults scorer svc cache es s).1.getD []) :
    ∃ e ∈ es, scoreOf scorer (trimString s) e ≠ 0 ∧
      coreOf x = coreOf (withHighlights scorer (trimString s) e) := by
  by_cases hn : es = []
  · subst hn
    rw [getResults_nil] at hx
    simp at hx
  · rw [getResults_query scorer svc cache es s hn hq] at hx
    simp only [Option.getD_some] at hx
    have hx' : coreOf x ∈
        ((insertionSortB
          (fun e1 e2 => decide (cmpEntries scorer svc.getGroups (trimString s)
            (filterEntries scorer (trimString s) es cache).2 e1 e2 ≤ 0))
          (filterEntries scorer (trimString s) es cache).1).map coreOf) := by
      by_cases hc : 1 < svc.count
      · rw [if_pos hc] at hx
        have hm := List.mem_map_of_mem coreOf hx
        rwa [groupingPass_map_core] at hm
      · rw [if_neg hc] at hx
        exact List.mem_map_of_mem coreOf hx
    rcases List.mem_map.mp hx' with ⟨y, hy, hxy⟩
    have hyf : y ∈ (filterEntries scorer (trimString s) es cache).1 :=
      (mem_insertionSortB _ _ _).mp hy
    rcases mem_filterEntries_elim scorer (trimString s) hq es cache hcoh y hyf
      with ⟨e, he, hs0, hye⟩
    exact ⟨e, he, hs0, by rw [← hxy, hye]⟩

/-- C1: with a non-empty normalized query, every entry of the result has
a nonzero fuzzy match score against the query, its highlight ranges are
exactly the score result's label and description match ranges (set via
setHighlights), and every candidate whose score is zero is absent from
the result. -/
theorem nonzero_score_filter (scorer : Scorer)
    (svc : INextEditorGroupsService) (cache : ScorerCache)
    (es : List EditorPickerEntry) (s : String)
    (hq : (trimString s) ≠ "") (hcoh : Coherent scorer cache) :
    (∀ x ∈ (getResults scorer svc cache es s).1.getD [],
      scoreOf scorer (trimString s) x ≠ 0 ∧
      x.labelHighlights =
        (scorer x.editor.name x.editor.description (trimString s)).labelMatch ∧
      x.descriptionHighlights =
        (scorer x.editor.name x.editor.description
          (trimString s)).descriptionMatch) ∧
    (∀ e ∈ es, scoreOf scorer (trimString s) e = 0 →
      ∀ x ∈ (getResults scorer svc cache es s).1.getD [],
        x.editor ≠ e.editor) := by
  have main : ∀ x ∈ (getResults scorer svc cache es s).1.getD [],
      scoreOf scorer (trimString s) x ≠ 0 ∧
      x.labelHighlights =
        (scorer x.editor.name x.editor.description (trimString s)).labelMatch ∧
      x.descriptionHighlights =
        (scorer x.editor.name x.editor.description
          (trimString s)).descriptionMatch := by
    intro x hx
    rcases mem_getResults_elim scorer svc cache es s x hq hcoh hx
      with ⟨e, _he, hs0, hcore⟩
    have hed : x.editor = e.editor := congrArg EntryCore.editor hcore
    have hlh : x.labelHighlights =
        (scorer e.editor.name e.editor.description (trimString s)).labelMatch :=
      congrArg EntryCore.labelHighlights hcore
    have hdh : x.descriptionHighlights =
        (scorer e.editor.name e.editor.description
          (trimString s)).descriptionMatch :=
      congrArg EntryCore.descriptionHighlights hcore
    refine ⟨?_, ?_, ?_⟩
    · unfold scoreOf at hs0 ⊢
      rw [hed]
      exact hs0
    · rw [hed]
      exact hlh
    · rw [hed]
      exact hdh
  refine ⟨main, ?_⟩
  intro e _he hescore x hx heq
  have h1 := (main x hx).1
  unfold scoreOf at h1 hescore
  rw [heq] at h1
  exact h1 hescore

/-- Witness for C1: query "a" keeps the matching editor and drops the
zero-score one. -/
theorem nonzero_score_filter_witness :
    (∀ x ∈ (getResults demoScorer svcOne []
        [mkEntry edMid grp1, mkEntry edNone grp1] "a").1.getD [],
      scoreOf demoScorer (trimString "a") x ≠ 0 ∧
      x.labelHighlights =
        (demoScorer x.editor.name x.editor.description
          (trimString "a")).labelMatch ∧
      x.descriptionHighlights =
        (demoScorer x.editor.name x.editor.description
          (trimString "a")).descriptionMatch) ∧
    (∀ e ∈ [mkEntry edMid grp1, mkEntry edNone grp1],
      scoreOf demoScorer (trimString "a") e = 0 →
      ∀ x ∈ (getResults demoScorer svcOne []
          [mkEntry edMid grp1, mkEntry edNone grp1] "a").1.getD [],
        x.editor ≠ e.editor) :=
  nonzero_score_filter demoScorer svcOne []
    [mkEntry edMid grp1, mkEntry edNone grp1] "a" (by decide)
    (coherent_empty demoScorer)

/-- C4 (amended): the group-annotation pass runs exactly when the editor
group service reports more than one group — even if the surviving
entries span a single distinct group.  When it runs, the first entry of
the result never gets showBorder (though its group label is set); every
later entry whose predecessor belongs to a different group gets the
group's display label and showBorder; every entry continuing its
predecessor's group keeps no label and no border.  When the service has
at most one group, no entry is annotated at all. -/
theorem groupingBordersAndLabels (scorer : Scorer)
    (svc : INextEditorGroupsService) (cache : ScorerCache)
    (es : List EditorPickerEntry) (s : String)
    (hfresh : ∀ e ∈ es, Fresh e) :
    (1 < svc.count →
      (∀ h, ((getResults scorer svc cache es s).1.getD []).head? =
          some h →
        h.showBorder = false ∧ h.groupLabel = some h.group.label) ∧
      List.Chain' annotRel
        ((getResults scorer svc cache es s).1.getD [])) ∧
    (¬ 1 < svc.count →
      ∀ x ∈ (getResults scorer svc cache es s).1.getD [], Fresh x) := by
  by_cases hn : es = []
  · subst hn
    rw [getResults_nil]
    constructor
    · intro _
      constructor
      · intro h hh; simp at hh
      · simp
    · intro _ x hx; simp at hx
  · by_cases hq : trimString s = ""
    · rw [getResults_empty_query scorer svc cache es s hn hq]
      simp only [Option.getD_some]
      constructor
      · intro hc
        rw [if_pos hc]
        have hg := groupingPass_none es hfresh
        exact ⟨hg.2, hg.1⟩
      · intro hc
        rw [if_neg hc]
        exact hfresh
    · rw [getResults_query scorer svc cache es s hn hq]
      simp only [Option.getD_some]
      have hfsorted : ∀ x ∈ insertionSortB
          (fun e1 e2 => decide (cmpEntries scorer svc.getGroups
            (trimString s)
            (filterEntries scorer (trimString s) es cache).2 e1 e2 ≤ 0))
          (filterEntries scorer (trimString s) es cache).1, Fresh x := by
        intro x hx
        exact fresh_filterEntries scorer (trimString s) es cache hfresh x
          ((mem_insertionSortB _ _ _).mp hx)
      constructor
      · intro hc
        rw [if_pos hc]
        have hg := groupingPass_none _ hfsorted
        exact ⟨hg.2, hg.1⟩
      · intro hc
        rw [if_neg hc]
        exact hfsorted

/-- Witness for C4: two groups in the service, two surviving entries in
group order; the annotated result satisfies the head and chain
conditions. -/
theorem groupingBordersAndLabels_witness :
    (∀ h, ((getResults demoScorer svcTwo []
        [mkEntry edMid grp1, mkEntry edHigh grp2] "").1.getD
          []).head? = some h →
      h.showBorder = false ∧ h.groupLabel = some h.group.label) ∧
    List.Chain' annotRel ((getResults demoScorer svcTwo []
        [mkEntry edMid grp1, mkEntry edHigh grp2] "").1.getD []) :=
  (groupingBordersAndLabels demoScorer svcTwo []
    [mkEntry edMid grp1, mkEntry edHigh grp2] ""
    (by simp [Fresh, mkEntry])).1 (by decide)

/-- C4 counterexample: the claim ties the annotation pass to more than
one distinct group among the surviving entries, but the code ties it to
the service's group count.  With two groups in the service and a single
surviving entry (one distinct group), the pass still runs and sets that
entry's group label. -/
theorem groupingBordersAndLabels_counterexample :
    (∀ x ∈ (getResults demoScorer svcTwo []
        [mkEntry edMid grp1] "").1.getD [], x.group.id = 1) ∧
    ¬ (∀ x ∈ (getResults demoScorer svcTwo []
        [mkEntry edMid grp1] "").1.getD [], x.groupLabel = none) := by
  constructor
  · decide
  · decide

/-! ### Cache congruence (for idempotence) -/

theorem orderedInsertB_congr (le1 le2 : α → α → Bool)
    (h : ∀ a b, le1 a b = le2 a b) (a : α) (l : List α) :
    orderedInsertB le1 a l = orderedInsertB le2 a l := by
  induction l with
  | nil => rfl
  | cons b l ih =>
      simp only [orderedInsertB]
      rw [h a b, ih]

theorem insertionSortB_congr (le1 le2 : α → α → Bool)
    (h : ∀ a b, le1 a b = le2 a b) (l : List α) :
    insertionSortB le1 l = insertionSortB le2 l := by
  induction l with
  | nil => rfl
  | cons a l ih =>
      simp only [insertionSortB]
      rw [ih, orderedInsertB_congr le1 le2 h]

theorem getResults_snd (scorer : Scorer) (svc : INextEditorGroupsService)
    (cache : ScorerCache) (es : List EditorPickerEntry) (s : String) :
    (getResults scorer svc cache es s).2 =
      (filterEntries scorer (trimString s) es cache).2 := by
  by_cases hn : es = []
  · subst hn
    rfl
  · by_cases hq : trimString s = ""
    · rw [getResults_empty_query scorer svc cache es s hn hq, hq,
        filterEntries_empty_query]
    · rw [getResults_query scorer svc cache es s hn hq]

theorem getResults_snd_coherent (scorer : Scorer)
    (svc : INextEditorGroupsService) (cache : ScorerCache)
    (es : List EditorPickerEntry) (s : String)
    (hcoh : Coherent scorer cache) :
    Coherent scorer (getResults scorer svc cache es s).2 := by
  rw [getResults_snd]
  exact filterEntries_snd_coherent scorer (trimString s) es cache hcoh

theorem getResults_fst_congr (scorer : Scorer)
    (svc : INextEditorGroupsService) (es : List EditorPickerEntry)
    (s : String) (c c' : ScorerCache)
    (hc : Coherent scorer c) (hc' : Coherent scorer c') :
    (getResults scorer svc c es s).1 = (getResults scorer svc c' es s).1 := by
  by_cases hn : es = []
  · subst hn
    rw [getResults_nil, getResults_nil]
  · by_cases hq : trimString s = ""
    · rw [getResults_empty_query scorer svc c es s hn hq,
        getResults_empty_query scorer svc c' es s hn hq]
    · rw [getResults_query scorer svc c es s hn hq,
        getResults_query scorer svc c' es s hn hq]
      have hcohf := filterEntries_snd_coherent scorer (trimString s) es c hc
      have hcohf' := filterEntries_snd_coherent scorer (trimString s) es c' hc'
      have hf : (filterEntries scorer (trimString s) es c).1 =
          (filterEntries scorer (trimString s) es c').1 := by
        rw [filterEntries_fst scorer _ hq es c hc,
          filterEntries_fst scorer _ hq es c' hc']
      have hle : ∀ e1 e2 : EditorPickerEntry,
          (decide (cmpEntries scorer svc.getGroups (trimString s)
            (filterEntries scorer (trimString s) es c).2 e1 e2 ≤ 0)) =
          (decide (cmpEntries scorer svc.getGroups (trimString s)
            (filterEntries scorer (trimString s) es c').2 e1 e2 ≤ 0)) := by
        intro e1 e2
        have hcmp : cmpEntries scorer svc.getGroups (trimString s)
            (filterEntries scorer (trimString s) es c).2 e1 e2 =
            cmpEntries scorer svc.getGroups (trimString s)
              (filterEntries scorer (trimString s) es c').2 e1 e2 := by
          by_cases hg : e1.group.id = e2.group.id
          · rw [cmpEntries_eq_of_eq scorer svc.getGroups (trimString s)
                (filterEntries scorer (trimString s) es c).2 e1 e2 hg,
              cmpEntries_eq_of_eq scorer svc.getGroups (trimString s)
                (filterEntries scorer (trimString s) es c').2 e1 e2 hg,
              itemScoreVal_coherent scorer _ hcohf e1 (trimString s),
              itemScoreVal_coherent scorer _ hcohf e2 (trimString s),
              itemScoreVal_coherent scorer _ hcohf' e1 (trimString s),
              itemScoreVal_coherent scorer _ hcohf' e2 (trimString s)]
          · rw [cmpEntries_eq_of_ne scorer svc.getGroups (trimString s)
                (filterEntries scorer (trimString s) es c).2 e1 e2 hg,
              cmpEntries_eq_of_ne scorer svc.getGroups (trimString s)
                (filterEntries scorer (trimString s) es c').2 e1 e2 hg]
        rw [hcmp]
      rw [hf, insertionSortB_congr _ _ hle]

/-- C7: with an unchanged candidate set, group list and (deterministic)
scorer, a second getResults run — whether with the very same cache or
with the cache as the first run left it — produces the identical result
list: same entries, same order, same highlight annotations. -/
theorem getResults_idempotent (scorer : Scorer)
    (svc : INextEditorGroupsService) (cache : ScorerCache)
    (es : List EditorPickerEntry) (s : String)
    (hcoh : Coherent scorer cache) :
    (getResults scorer svc
        ((getResults scorer svc cache es s).2) es s).1 =
      (getResults scorer svc cache es s).1 :=
  getResults_fst_congr scorer svc es s _ cache
    (getResults_snd_coherent scorer svc cache es s hcoh) hcoh

/-- Witness for C7: two runs on a concrete candidate set and query. -/
theorem getResults_idempotent_witness :
    (getResults demoScorer svcTwo ((getResults demoScorer svcTwo []
        [mkEntry edMid grp1, mkEntry edHigh grp2] "a").2)
        [mkEntry edMid grp1, mkEntry edHigh grp2] "a").1 =
      (getResults demoScorer svcTwo []
        [mkEntry edMid grp1, mkEntry edHigh grp2] "a").1 :=
  getResults_idempotent demoScorer svcTwo []
    [mkEntry edMid grp1, mkEntry edHigh grp2] "a"
    (coherent_empty demoScorer)

/-! ### Sort order of the result (for C3) -/

/-- The order established by the sort pass, read on the entry cores:
entries of different groups strictly by the group's position in the
creation-ordered group list; entries of one group by descending scorer
score. -/
def coreRel (scorer : Scorer) (groups : List INextEditorGroup)
    (q : String) (a b : EntryCore) : Prop :=
  (a.group.id ≠ b.group.id →
    indexOfGroup groups a.group.id < indexOfGroup groups b.group.id) ∧
  (a.group.id = b.group.id →
    (scorer b.editor.name b.editor.description q).score ≤
      (scorer a.editor.name a.editor.description q).score)

theorem pairwise_sort_coreRel (scorer : Scorer)
    (groups : List INextEditorGroup) (q : String) (cache2 : ScorerCache)
    (hcoh2 : Coherent scorer cache2) (l : List EditorPickerEntry)
    (hpres : ∀ e ∈ l, GroupPresent groups e) :
    List.Pairwise (fun a b => coreRel scorer groups q (coreOf a) (coreOf b))
      (insertionSortB
        (fun e1 e2 => decide (cmpEntries scorer groups q cache2 e1 e2 ≤ 0))
        l) := by
  have hle := pairwise_insertionSortB
    (fun e1 e2 => decide (cmpEntries scorer groups q cache2 e1 e2 ≤ 0))
    (GroupPresent groups)
    (fun a b _ _ => by
      rcases cmpEntries_total scorer groups q cache2 a b with h | h
      · exact Or.inl (decide_eq_true h)
      · exact Or.inr (decide_eq_true h))
    (fun a b c hpa hpb _ h1 h2 =>
      decide_eq_true (cmpEntries_trans scorer groups q cache2 a b c hpa hpb
        (of_decide_eq_true h1) (of_decide_eq_true h2)))
    l hpres
  refine List.Pairwise.imp_of_mem ?_ hle
  intro a b ha hb hab
  have hpa : GroupPresent groups a :=
    hpres a ((mem_insertionSortB _ _ _).mp ha)
  have hcmp : cmpEntries scorer groups q cache2 a b ≤ 0 :=
    of_decide_eq_true hab
  constructor
  · intro hne
    show indexOfGroup groups a.group.id < indexOfGroup groups b.group.id
    rw [cmpEntries_eq_of_ne scorer groups q cache2 a b hne] at hcmp
    have hle' : indexOfGroup groups a.group.id ≤
        indexOfGroup groups b.group.id := by omega
    rcases lt_or_eq_of_le hle' with hlt | heqi
    · exact hlt
    · exact absurd (indexOfGroup_inj groups a.group.id b.group.id
        (indexOfGroup_nonneg groups a.group.id hpa) heqi) hne
  · intro heq
    show (scorer b.editor.name b.editor.description q).score ≤
      (scorer a.editor.name a.editor.description q).score
    rw [cmpEntries_eq_of_eq scorer groups q cache2 a b heq,
      itemScoreVal_coherent scorer cache2 hcoh2 a q,
      itemScoreVal_coherent scorer cache2 hcoh2 b q] at hcmp
    omega

theorem pairwise_getResults_coreRel (scorer : Scorer)
    (svc : INextEditorGroupsService) (cache : ScorerCache)
    (es : List EditorPickerEntry) (s : String)
    (hq : trimString s ≠ "") (hcoh : Coherent scorer cache)
    (hpres : ∀ e ∈ es, GroupPresent svc.getGroups e) :
    List.Pairwise (fun a b => coreRel scorer svc.getGroups (trimString s)
        (coreOf a) (coreOf b))
      ((getResults scorer svc cache es s).1.getD []) := by
  by_cases hn : es = []
  · subst hn
    rw [getResults_nil]
    exact List.Pairwise.nil
  · rw [getResults_query scorer svc cache es s hn hq]
    simp only [Option.getD_some]
    have hpf : ∀ x ∈ (filterEntries scorer (trimString s) es cache).1,
        GroupPresent svc.getGroups x := by
      intro x hx
      rcases mem_filterEntries_elim scorer (trimString s) hq es cache hcoh
        x hx with ⟨e, he, _, hxe⟩
      rw [hxe]
      exact hpres e he
    have hsorted := pairwise_sort_coreRel scorer svc.getGroups
      (trimString s) (filterEntries scorer (trimString s) es cache).2
      (filterEntries_snd_coherent scorer (trimString s) es cache hcoh)
      (filterEntries scorer (trimString s) es cache).1 hpf
    by_cases hc : 1 < svc.count
    · rw [if_pos hc]
      have h1 := List.pairwise_map.mpr hsorted
      rw [← groupingPass_map_core _ none] at h1
      exact List.pairwise_map.mp h1
    · rw [if_neg hc]
      exact hsorted

theorem pairwise_group_contiguous (groups : List INextEditorGroup)
    (L : List EditorPickerEntry)
    (hpair : List.Pairwise (fun a b => a.group.id ≠ b.group.id →
      indexOfGroup groups a.group.id < indexOfGroup groups b.group.id) L)
    (i j k : Nat) (hij : i < j) (hjk : j < k)
    (a b c : EditorPickerEntry)
    (ha : L[i]? = some a) (hb : L[j]? = some b) (hc : L[k]? = some c)
    (hik : a.group.id = c.group.id) : b.group.id = a.group.id := by
  rcases List.getElem?_eq_some_iff.mp ha with ⟨hi, ha'⟩
  rcases List.getElem?_eq_some_iff.mp hb with ⟨hj, hb'⟩
  rcases List.getElem?_eq_some_iff.mp hc with ⟨hk, hc'⟩
  have hget := List.pairwise_iff_getElem.mp hpair
  by_contra hne
  have r1 := hget i j hi hj hij
  have r2 := hget j k hj hk hjk
  rw [ha', hb'] at r1
  rw [hb', hc'] at r2
  have hlt1 := r1 (fun h => hne h.symm)
  have hlt2 := r2 (fun h => hne (h.trans hik.symm))
  have heq : indexOfGroup groups a.group.id =
      indexOfGroup groups c.group.id := by rw [hik]
  omega

/-- C3: with a non-empty normalized query the result is sorted with
primary key ascending group-creation order (strict between entries of
different groups; entries of different groups are ordered independently
of the scorer, never by score) and secondary key descending scorer score
within one group; consequently entries of one group are contiguous in
the result, so groups appear in ascending creation-time order. -/
theorem sorted_by_group_then_score (scorer : Scorer)
    (svc : INextEditorGroupsService) (cache : ScorerCache)
    (es : List EditorPickerEntry) (s : String)
    (hq : trimString s ≠ "") (hcoh : Coherent scorer cache)
    (hpres : ∀ e ∈ es, GroupPresent svc.getGroups e) :
    List.Pairwise (fun a b => coreRel scorer svc.getGroups (trimString s)
        (coreOf a) (coreOf b))
      ((getResults scorer svc cache es s).1.getD []) ∧
    (∀ (i j k : Nat), i < j → j < k →
      ∀ a b c : EditorPickerEntry,
        ((getResults scorer svc cache es s).1.getD [])[i]? = some a →
        ((getResults scorer svc cache es s).1.getD [])[j]? = some b →
        ((getResults scorer svc cache es s).1.getD [])[k]? = some c →
        a.group.id = c.group.id → b.group.id = a.group.id) ∧
    (∀ (sc1 sc2 : Scorer) (c : ScorerCache) (e1 e2 : EditorPickerEntry),
      e1.group.id ≠ e2.group.id →
      cmpEntries sc1 svc.getGroups (trimString s) c e1 e2 =
        cmpEntries sc2 svc.getGroups (trimString s) c e1 e2) := by
  have hpair := pairwise_getResults_coreRel scorer svc cache es s hq hcoh
    hpres
  refine ⟨hpair, ?_, ?_⟩
  · intro i j k hij hjk a b c ha hb hc hik
    refine pairwise_group_contiguous svc.getGroups _ ?_ i j k hij hjk
      a b c ha hb hc hik
    exact hpair.imp (fun h => h.1)
  · intro sc1 sc2 c e1 e2 hne
    rw [cmpEntries_eq_of_ne sc1 svc.getGroups (trimString s) c e1 e2 hne,
      cmpEntries_eq_of_ne sc2 svc.getGroups (trimString s) c e1 e2 hne]

/-- Witness for C3: four candidates over two groups, query "a": the
zero-score candidate is dropped and the rest are sorted by group
creation order and then by descending score. -/
theorem sorted_by_group_then_score_witness :
    List.Pairwise (fun a b => coreRel demoScorer svcTwo.getGroups
        (trimString "a") (coreOf a) (coreOf b))
      ((getResults demoScorer svcTwo []
        [mkEntry edHigh grp2, mkEntry edLow grp1, mkEntry edMid grp1,
          mkEntry edNone grp1] "a").1.getD []) ∧
    (∀ (i j k : Nat), i < j → j < k →
      ∀ a b c : EditorPickerEntry,
        ((getResults demoScorer svcTwo []
          [mkEntry edHigh grp2, mkEntry edLow grp1, mkEntry edMid grp1,
            mkEntry edNone grp1] "a").1.getD [])[i]? = some a →
        ((getResults demoScorer svcTwo []
          [mkEntry edHigh grp2, mkEntry edLow grp1, mkEntry edMid grp1,
            mkEntry edNone grp1] "a").1.getD [])[j]? = some b →
        ((getResults demoScorer svcTwo []
          [mkEntry edHigh grp2, mkEntry edLow grp1, mkEntry edMid grp1,
            mkEntry edNone grp1] "a").1.getD [])[k]? = some c →
        a.group.id = c.group.id → b.group.id = a.group.id) ∧
    (∀ (sc1 sc2 : Scorer) (c : ScorerCache) (e1 e2 : EditorPickerEntry),
      e1.group.id ≠ e2.group.id →
      cmpEntries sc1 svcTwo.getGroups (trimString "a") c e1 e2 =
        cmpEntries sc2 svcTwo.getGroups (trimString "a") c e1 e2) :=
  sorted_by_group_then_score demoScorer svcTwo []
    [mkEntry edHigh grp2, mkEntry edLow grp1, mkEntry edMid grp1,
      mkEntry edNone grp1] "a" (by decide) (coherent_empty demoScorer)
    (by decide)

end EditorPicker
